import Mathlib

/-!
Verification of the `grabbag` iterator-adaptor library.

Each Rust adaptor from `src/iter/` is shallowly embedded: a Rust iterator
becomes a Lean `List` (its remaining elements), a `next` method becomes a
function from the adaptor's state to a result and an updated state, and a
Rust `panic!` becomes `Except.error`.  Drivers (`teeRun`, drains) model a
single-threaded consumer repeatedly calling `next`.
-/

namespace Grabbag

/-! ## Tee (src/iter/tee.rs) -/

/-- Shared state of a `tee()` pair: the upstream iterator (remaining
elements), the count of elements pulled from upstream, and the FIFO buffer
(`VecDeque`, front at the list head). -/
structure TeeState (E : Type) where
  iter : List E
  iter_next : Nat
  buffer : List E
  deriving Repr, DecidableEq

/-- `Tee::next` for a handle whose consumed count is `this_next`.
Returns the yielded element (or `none` at exhaustion), the updated shared
state, and the handle's updated count; `Except.error` models the two
`panic!` branches. -/
def teeNext (st : TeeState E) (this_next : Nat) :
    Except String (Option E × TeeState E × Nat) :=
  if this_next = st.iter_next then
    -- Tee is even with iter: pull upstream.
    match st.iter with
    | [] => .ok (none, st, this_next)
    | e :: rest =>
        .ok (some e,
             { iter := rest, iter_next := st.iter_next + 1,
               buffer := st.buffer ++ [e] },
             this_next + 1)
  else if this_next < st.iter_next then
    match st.buffer with
    | [] => .error "tee fell behind iterator, but buffer is empty"
    | e :: buf => .ok (some e, { st with buffer := buf }, this_next + 1)
  else
    .error "tee got ahead of iterator"

/-- A single-threaded interleaved run of the two handles of one `tee()`
pair: `bs` is the schedule (`false` = pull handle 0, `true` = pull
handle 1); returns the elements each handle received, in order. -/
def teeRun (st : TeeState E) (c0 c1 : Nat) :
    List Bool → Except String (List E × List E)
  | [] => .ok ([], [])
  | false :: hs =>
    match teeNext st c0 with
    | .error msg => .error msg
    | .ok (o, st', c0') =>
      match teeRun st' c0' c1 hs with
      | .error msg => .error msg
      | .ok (out0, out1) =>
        match o with
        | none => .ok (out0, out1)
        | some e => .ok (e :: out0, out1)
  | true :: hs =>
    match teeNext st c1 with
    | .error msg => .error msg
    | .ok (o, st', c1') =>
      match teeRun st' c0 c1' hs with
      | .error msg => .error msg
      | .ok (out0, out1) =>
        match o with
        | none => .ok (out0, out1)
        | some e => .ok (out0, e :: out1)

/-- Initial shared state built by `TeeIterator::tee` from upstream `S`:
both handles start with consumed count 0. -/
def teeInit (S : List E) : TeeState E := ⟨S, 0, []⟩

/-- The shared-state invariant of a `tee()` pair (spec §3): the produced
count is the larger consumed count, and the buffer holds the surplus over
the smaller one. -/
def TeeInv (st : TeeState E) (c0 c1 : Nat) : Prop :=
  st.iter_next = max c0 c1 ∧ st.buffer.length = st.iter_next - min c0 c1

instance (st : TeeState E) (c0 c1 : Nat) : Decidable (TeeInv st c0 c1) := by
  unfold TeeInv; infer_instance

theorem teeNext_frontier_end {st : TeeState E} {this_next : Nat}
    (h : this_next = st.iter_next) (hiter : st.iter = []) :
    teeNext st this_next = .ok (none, st, this_next) := by
  simp [teeNext, h, hiter]

theorem teeNext_frontier {st : TeeState E} {this_next : Nat} {e : E} {rest : List E}
    (h : this_next = st.iter_next) (hiter : st.iter = e :: rest) :
    teeNext st this_next =
      .ok (some e,
           { iter := rest, iter_next := st.iter_next + 1, buffer := st.buffer ++ [e] },
           this_next + 1) := by
  simp [teeNext, h, hiter]

theorem teeNext_lagging {st : TeeState E} {this_next : Nat} {e : E} {buf : List E}
    (h : this_next < st.iter_next) (hbuf : st.buffer = e :: buf) :
    teeNext st this_next = .ok (some e, { st with buffer := buf }, this_next + 1) := by
  have hne : ¬ this_next = st.iter_next := Nat.ne_of_lt h
  simp [teeNext, hne, h, hbuf]

/-- Replay lemma, generalized over any reachable joint state of one
`tee()` pair: with produced count `p = max c0 c1` and lag `m = min c0 c1`,
the shared iterator holds `S.drop p` and the buffer the elements between
`m` and `p`; under any schedule each handle receives the next elements of
`S` past its own count, as many as it is pulled (capped by exhaustion). -/
theorem teeRun_reachable {E : Type} (bs : List Bool) :
    ∀ (S : List E) (c0 c1 : Nat), max c0 c1 ≤ S.length →
      teeRun ⟨S.drop (max c0 c1), max c0 c1,
              (S.drop (min c0 c1)).take (max c0 c1 - min c0 c1)⟩ c0 c1 bs
        = .ok ((S.drop c0).take (bs.count false), (S.drop c1).take (bs.count true)) := by
  induction bs with
  | nil => intro S c0 c1 _; simp [teeRun]
  | cons h hs ih =>
    intro S c0 c1 hp
    cases h
    case false =>
      rcases eq_or_lt_of_le (le_max_left c0 c1) with hc | hc
      · -- handle 0 is at the frontier
        rcases hdrop : S.drop (max c0 c1) with _ | ⟨e, rest⟩
        · -- upstream exhausted: state unchanged
          have hnil : S.drop c0 = [] := by
            rw [List.drop_eq_nil_iff] at hdrop ⊢; omega
          have hnext := @teeNext_frontier_end E
            ⟨[], max c0 c1,
             (S.drop (min c0 c1)).take (max c0 c1 - min c0 c1)⟩ c0 hc rfl
          have ih' := ih S c0 c1 hp
          rw [hdrop] at ih'
          simp only [teeRun, hnext, ih']
          simp [hnil]
        · -- upstream yields e
          have hplen : max c0 c1 < S.length := by
            by_contra hcon
            rw [List.drop_eq_nil_iff.mpr (by omega)] at hdrop
            exact List.noConfusion hdrop
          have hrest : rest = S.drop (max c0 c1 + 1) := by
            have := congrArg (List.drop 1) hdrop
            simpa [List.drop_drop, Nat.add_comm] using this.symm
          have hgetp : S[max c0 c1]? = some e := by
            have := congrArg List.head? hdrop
            simpa [List.head?_drop] using this
          have hbufeq :
              (S.drop (min c0 c1)).take (max c0 c1 - min c0 c1) ++ [e]
                = (S.drop (min c0 c1)).take (max c0 c1 + 1 - min c0 c1) := by
            have hmle : min c0 c1 ≤ max c0 c1 := min_le_max
            rw [show max c0 c1 + 1 - min c0 c1 = (max c0 c1 - min c0 c1) + 1 by omega,
              List.take_succ, List.getElem?_drop,
              show min c0 c1 + (max c0 c1 - min c0 c1) = max c0 c1 by omega, hgetp]
            rfl
          have ih' := ih S (c0 + 1) c1 (by omega)
          rw [show max (c0 + 1) c1 = max c0 c1 + 1 by omega,
            show min (c0 + 1) c1 = min c0 c1 by omega] at ih'
          have hnext := @teeNext_frontier E
            ⟨e :: rest, max c0 c1,
             (S.drop (min c0 c1)).take (max c0 c1 - min c0 c1)⟩ c0 e rest hc rfl
          simp only [teeRun, hnext]
          rw [hrest, hbufeq]
          simp only [ih']
          have hdrop0 : S.drop c0 = e :: rest := by rw [hc]; exact hdrop
          have hrest0 : rest = S.drop (c0 + 1) := by rw [hrest, ← hc]
          have hdc0 : S.drop c0 = e :: S.drop (c0 + 1) := by rw [hdrop0, hrest0]
          simp [hdc0, List.count_cons]
      · -- handle 0 lags: pop from the buffer
        have hm : min c0 c1 = c0 := by omega
        rcases hdrop : S.drop c0 with _ | ⟨e, rest⟩
        · exfalso
          have := List.drop_eq_nil_iff.mp hdrop
          omega
        · have hrest : rest = S.drop (c0 + 1) := by
            have := congrArg (List.drop 1) hdrop
            simpa [List.drop_drop, Nat.add_comm] using this.symm
          have hbuf : (S.drop (min c0 c1)).take (max c0 c1 - min c0 c1)
              = e :: rest.take (max c0 c1 - (c0 + 1)) := by
            rw [hm, hdrop, show max c0 c1 - c0 = (max c0 c1 - (c0 + 1)) + 1 by omega]
            rfl
          have ih' := ih S (c0 + 1) c1 (by omega)
          rw [show max (c0 + 1) c1 = max c0 c1 by omega,
            show min (c0 + 1) c1 = c0 + 1 by omega, ← hrest] at ih'
          have hnext := @teeNext_lagging E
            ⟨S.drop (max c0 c1), max c0 c1,
             (S.drop (min c0 c1)).take (max c0 c1 - min c0 c1)⟩ c0 e
            (rest.take (max c0 c1 - (c0 + 1))) hc hbuf
          simp only [teeRun, hnext, ih']
          simp [hdrop, List.count_cons]
    case true =>
      rcases eq_or_lt_of_le (le_max_right c0 c1) with hc | hc
      · rcases hdrop : S.drop (max c0 c1) with _ | ⟨e, rest⟩
        · have hnil : S.drop c1 = [] := by
            rw [List.drop_eq_nil_iff] at hdrop ⊢; omega
          have hnext := @teeNext_frontier_end E
            ⟨[], max c0 c1,
             (S.drop (min c0 c1)).take (max c0 c1 - min c0 c1)⟩ c1 hc rfl
          have ih' := ih S c0 c1 hp
          rw [hdrop] at ih'
          simp only [teeRun, hnext, ih']
          simp [hnil]
        · have hplen : max c0 c1 < S.length := by
            by_contra hcon
            rw [List.drop_eq_nil_iff.mpr (by omega)] at hdrop
            exact List.noConfusion hdrop
          have hrest : rest = S.drop (max c0 c1 + 1) := by
            have := congrArg (List.drop 1) hdrop
            simpa [List.drop_drop, Nat.add_comm] using this.symm
          have hgetp : S[max c0 c1]? = some e := by
            have := congrArg List.head? hdrop
            simpa [List.head?_drop] using this
          have hbufeq :
              (S.drop (min c0 c1)).take (max c0 c1 - min c0 c1) ++ [e]
                = (S.drop (min c0 c1)).take (max c0 c1 + 1 - min c0 c1) := by
            have hmle : min c0 c1 ≤ max c0 c1 := min_le_max
            rw [show max c0 c1 + 1 - min c0 c1 = (max c0 c1 - min c0 c1) + 1 by omega,
              List.take_succ, List.getElem?_drop,
              show min c0 c1 + (max c0 c1 - min c0 c1) = max c0 c1 by omega, hgetp]
            rfl
          have ih' := ih S c0 (c1 + 1) (by omega)
          rw [show max c0 (c1 + 1) = max c0 c1 + 1 by omega,
            show min c0 (c1 + 1) = min c0 c1 by omega] at ih'
          have hnext := @teeNext_frontier E
            ⟨e :: rest, max c0 c1,
             (S.drop (min c0 c1)).take (max c0 c1 - min c0 c1)⟩ c1 e rest hc rfl
          simp only [teeRun, hnext]
          rw [hrest, hbufeq]
          simp only [ih']
          have hdrop1 : S.drop c1 = e :: rest := by rw [hc]; exact hdrop
          have hrest1 : rest = S.drop (c1 + 1) := by rw [hrest, ← hc]
          have hdc1 : S.drop c1 = e :: S.drop (c1 + 1) := by rw [hdrop1, hrest1]
          simp [hdc1, List.count_cons]
      · have hm : min c0 c1 = c1 := by omega
        rcases hdrop : S.drop c1 with _ | ⟨e, rest⟩
        · exfalso
          have := List.drop_eq_nil_iff.mp hdrop
          omega
        · have hrest : rest = S.drop (c1 + 1) := by
            have := congrArg (List.drop 1) hdrop
            simpa [List.drop_drop, Nat.add_comm] using this.symm
          have hbuf : (S.drop (min c0 c1)).take (max c0 c1 - min c0 c1)
              = e :: rest.take (max c0 c1 - (c1 + 1)) := by
            rw [hm, hdrop, show max c0 c1 - c1 = (max c0 c1 - (c1 + 1)) + 1 by omega]
            rfl
          have ih' := ih S c0 (c1 + 1) (by omega)
          rw [show max c0 (c1 + 1) = max c0 c1 by omega,
            show min c0 (c1 + 1) = c1 + 1 by omega, ← hrest] at ih'
          have hnext := @teeNext_lagging E
            ⟨S.drop (max c0 c1), max c0 c1,
             (S.drop (min c0 c1)).take (max c0 c1 - min c0 c1)⟩ c1 e
            (rest.take (max c0 c1 - (c1 + 1))) hc hbuf
          simp only [teeRun, hnext, ih']
          simp [hdrop, List.count_cons]

/-- C1: Tee replay equivalence.  For every finite upstream sequence `S` and
every interleaving `bs` of `next()` calls on the two handles returned by
`tee(S)` (`false` pulls handle 0, `true` pulls handle 1), no call panics and
each handle receives exactly the first `k` elements of `S`, where `k` is the
number of times it was pulled (capped at `S.length`).  In particular any
schedule that pulls a handle at least `S.length` times drains exactly `S`
from it, in order, once per handle — including schedules that exhaust one
handle before the other is first pulled. -/
theorem tee_replay_equivalence {E : Type} (S : List E) (bs : List Bool) :
    teeRun (teeInit S) 0 0 bs
      = .ok (S.take (bs.count false), S.take (bs.count true)) := by
  have h := teeRun_reachable bs S 0 0 (by simp)
  simpa [teeInit] using h

theorem teeNext_ok_of_inv {st : TeeState E} {c other : Nat}
    (hmax : st.iter_next = max c other)
    (hlen : st.buffer.length = st.iter_next - min c other) :
    ∃ o st' c', teeNext st c = .ok (o, st', c') ∧
      st'.iter_next = max c' other ∧
      st'.buffer.length = st'.iter_next - min c' other := by
  rcases Nat.lt_trichotomy c st.iter_next with hlt | heq | hgt
  · -- lagging handle: the buffer cannot be empty
    rcases hbuf : st.buffer with _ | ⟨e, buf⟩
    · exfalso
      rw [hbuf] at hlen
      simp at hlen
      omega
    · refine ⟨some e, _, c + 1, teeNext_lagging hlt hbuf, ?_, ?_⟩
      · simp only
        omega
      · rw [hbuf] at hlen
        simp only [List.length_cons] at hlen ⊢
        omega
  · rcases hiter : st.iter with _ | ⟨e, rest⟩
    · exact ⟨none, st, c, teeNext_frontier_end heq hiter, hmax, hlen⟩
    · refine ⟨some e, _, c + 1, teeNext_frontier heq hiter, ?_, ?_⟩
      · simp only
        omega
      · simp only [List.length_append, List.length_cons, List.length_nil]
        omega
  · exfalso
    omega

/-- C6: Tee shared-state invariant.  If the joint state of a `tee()` pair
satisfies `TeeInv` (`produced = max c0 c1` and
`buffer.len = produced - min c0 c1`), then a `next()` call on either handle
returns without reaching either `panic!` branch (`Except.ok`) and the
resulting state satisfies `TeeInv` again; since the initial state satisfies
`TeeInv`, the panic branches are unreachable in single-threaded use of the
matched pair. -/
theorem tee_shared_state_invariant {E : Type} (st : TeeState E) (c0 c1 : Nat)
    (hinv : TeeInv st c0 c1) :
    (∃ o st' c0', teeNext st c0 = .ok (o, st', c0') ∧ TeeInv st' c0' c1) ∧
    (∃ o st' c1', teeNext st c1 = .ok (o, st', c1') ∧ TeeInv st' c0 c1') := by
  obtain ⟨hmax, hlen⟩ := hinv
  constructor
  · obtain ⟨o, st', c', h, h1, h2⟩ := teeNext_ok_of_inv hmax hlen
    exact ⟨o, st', c', h, h1, h2⟩
  · have hmax' : st.iter_next = max c1 c0 := by omega
    have hlen' : st.buffer.length = st.iter_next - min c1 c0 := by omega
    obtain ⟨o, st', c', h, h1, h2⟩ := teeNext_ok_of_inv hmax' hlen'
    refine ⟨o, st', c', h, ?_, ?_⟩
    · omega
    · omega

/-- Witness for C6: the invariant holds of the freshly created pair on
`[0, 1]` and is preserved by `next()` on either handle. -/
theorem tee_shared_state_invariant_witness :
    TeeInv (teeInit ([0, 1] : List Nat)) 0 0 ∧
    ((∃ o st' c0', teeNext (teeInit ([0, 1] : List Nat)) 0 = .ok (o, st', c0') ∧ TeeInv st' c0' 0) ∧
     (∃ o st' c1', teeNext (teeInit ([0, 1] : List Nat)) 0 = .ok (o, st', c1') ∧ TeeInv st' 0 c1')) :=
  ⟨by decide, tee_shared_state_invariant (teeInit [0, 1]) 0 0 (by decide)⟩

/-! ## GroupBy / Group (src/iter/group_by.rs)

The group function (the stored `group` closure) is passed explicitly as
`f`; the rest of `GroupByShared` is embedded as a structure. -/

structure GroupByShared (E G : Type) where
  iter : List E
  last_group : Option G
  push_back : Option (G × E)
  deriving Repr, DecidableEq

/-- The skip loop inside `GroupBy::next` (the `Some(last_g)` arm): pull
elements until one's group differs from `last_g`, returning that element,
its group and the remaining upstream. -/
def groupBySeek (f : E → G) [DecidableEq G] (last_g : G) :
    List E → Option (E × G × List E)
  | [] => none
  | e :: rest =>
    let g := f e
    if g ≠ last_g then some (e, g, rest) else groupBySeek f last_g rest

/-- `GroupBy::next` (the outer iterator).  Yields the next `(group_value,
first_value)` pair — the data a fresh `Group` sub-iterator is seeded with —
together with the updated shared state (returned also on exhaustion, since
the Rust method mutates in place). -/
def groupByNext (f : E → G) [DecidableEq G] (st : GroupByShared E G) :
    Option (G × Option E) × GroupByShared E G :=
  -- If we have a push-back element, immediately construct a sub iterator.
  match st.push_back with
  | some (g, e) => (some (g, some e), { st with push_back := none })
  | none =>
    match st.last_group with
    | none =>
      -- No previous group: just grab the next element.
      match st.iter with
      | [] => (none, { st with last_group := none })
      | e :: rest =>
        let g := f e
        (some (g, some e),
         { iter := rest, last_group := some g, push_back := none })
    | some last_g =>
      -- Keep pulling elements until the group changes.
      match groupBySeek f last_g st.iter with
      | none => (none, { st with iter := [], last_group := none })
      | some (e, g, rest) =>
        (some (g, some e),
         { iter := rest, last_group := some g, push_back := none })

/-- `Group::next` for a sub-iterator with group value `gv` and buffered
first value `first`.  Returns the yielded element, the updated `first`
field and the updated shared state. -/
def groupNext (f : E → G) [DecidableEq G] (gv : G) (first : Option E)
    (st : GroupByShared E G) : Option E × Option E × GroupByShared E G :=
  match first with
  | some e => (some e, none, st)
  | none =>
    match st.iter with
    | [] => (none, none, st)
    | e :: rest =>
      let g := f e
      if g = gv then (some e, none, { st with iter := rest })
      else (none, none, { st with iter := rest, push_back := some (g, e) })

/-- Driver: fully drain one `Group` sub-iterator (repeated `Group::next`
until exhaustion), returning the yielded elements and the final shared
state.  `fuel` bounds the number of calls. -/
def groupDrainAux (f : E → G) [DecidableEq G] (fuel : Nat) (gv : G)
    (first : Option E) (st : GroupByShared E G) :
    List E × GroupByShared E G :=
  match fuel with
  | 0 => ([], st)
  | fuel + 1 =>
    match groupNext f gv first st with
    | (some e, first', st') =>
      let (l, st'') := groupDrainAux f fuel gv first' st'
      (e :: l, st'')
    | (none, _, st') => ([], st')

def groupDrain (f : E → G) [DecidableEq G] (gv : G) (first : Option E)
    (st : GroupByShared E G) : List E × GroupByShared E G :=
  groupDrainAux f (st.iter.length + 2) gv first st

/-- Driver: the full-drain discipline — repeatedly pull the outer iterator
and fully drain every `Group` before the next outer pull, collecting the
`(key, elements)` pairs. -/
def groupByDrainAux (f : E → G) [DecidableEq G] (fuel : Nat)
    (st : GroupByShared E G) : List (G × List E) :=
  match fuel with
  | 0 => []
  | fuel + 1 =>
    match groupByNext f st with
    | (none, _) => []
    | (some (g, first), st') =>
      let (l, st'') := groupDrain f g first st'
      (g, l) :: groupByDrainAux f fuel st''

/-- Draining `group_by(S, f)` under the full-drain discipline. -/
def groupByDrainAll (f : E → G) [DecidableEq G] (S : List E) :
    List (G × List E) :=
  groupByDrainAux f (S.length + 1) ⟨S, none, none⟩

theorem length_dropWhile_le (p : α → Bool) (l : List α) :
    (l.dropWhile p).length ≤ l.length := by
  induction l with
  | nil => simp
  | cons a l ih =>
    by_cases h : p a
    · simp only [List.dropWhile_cons, h, if_true, List.length_cons]
      omega
    · simp [List.dropWhile_cons, h]

/-- The maximal runs of a sequence under a key function: the reference
description of §4.2's contract ("sequence of maximal runs"), stated
independently of the iterator code. -/
def runs (f : E → G) [DecidableEq G] : List E → List (G × List E)
  | [] => []
  | e :: rest =>
    (f e, e :: rest.takeWhile (fun x => decide (f x = f e))) ::
      runs f (rest.dropWhile (fun x => decide (f x = f e)))
termination_by l => l.length
decreasing_by
  simp only [List.length_cons]
  have := length_dropWhile_le (fun x => decide (f x = f e)) rest
  omega

/-- Driver for the abandonment scenario of C3: fully drain the first three
groups, pull the fourth outer pair, read exactly one element of the fourth
group, abandon it, then pull the outer iterator once more and fully drain
the resulting group; returns that fifth `(key, elements)` pair. -/
def groupByAbandonScenario (f : E → G) [DecidableEq G] (S : List E) :
    Option (G × List E) :=
  let st0 : GroupByShared E G := ⟨S, none, none⟩
  match groupByNext f st0 with
  | (some (g1, fv1), st1) =>
    match groupDrain f g1 fv1 st1 with
    | (_, st2) =>
      match groupByNext f st2 with
      | (some (g2, fv2), st3) =>
        match groupDrain f g2 fv2 st3 with
        | (_, st4) =>
          match groupByNext f st4 with
          | (some (g3, fv3), st5) =>
            match groupDrain f g3 fv3 st5 with
            | (_, st6) =>
              match groupByNext f st6 with
              | (some (g4, fv4), st7) =>
                -- read one element of the fourth group, then abandon it
                match groupNext f g4 fv4 st7 with
                | (_, _, st8) =>
                  match groupByNext f st8 with
                  | (some (g5, fv5), st9) =>
                    some (g5, (groupDrain f g5 fv5 st9).1)
                  | (none, _) => none
              | (none, _) => none
          | (none, _) => none
      | (none, _) => none
  | (none, _) => none

theorem groupDrainAux_seed_step (f : E → G) [DecidableEq G] (fuel : Nat)
    (gv : G) (e : E) (st : GroupByShared E G) :
    groupDrainAux f (fuel + 1) gv (some e) st
      = (match groupDrainAux f fuel gv none st with
         | (l, st'') => (e :: l, st'')) := rfl

theorem groupDrainAux_none (f : E → G) [DecidableEq G] (gv : G) :
    ∀ (iter : List E) (lg : Option G) (fuel : Nat), iter.length + 1 ≤ fuel →
      groupDrainAux f fuel gv none ⟨iter, lg, none⟩
        = (iter.takeWhile (fun x => decide (f x = gv)),
           match iter.dropWhile (fun x => decide (f x = gv)) with
           | [] => ⟨[], lg, none⟩
           | x :: r => ⟨r, lg, some (f x, x)⟩) := by
  intro iter
  induction iter with
  | nil =>
    intro lg fuel hf
    match fuel, hf with
    | fuel + 1, _ => rfl
  | cons x rest ih =>
    intro lg fuel hf
    match fuel, hf with
    | fuel + 1, hf =>
      by_cases hx : f x = gv
      · have h1 : groupDrainAux f (fuel + 1) gv none ⟨x :: rest, lg, none⟩
            = (match groupDrainAux f fuel gv none ⟨rest, lg, none⟩ with
               | (l, st'') => (x :: l, st'')) := by
          simp only [groupDrainAux, groupNext, hx, if_pos]
        rw [h1, ih lg fuel (by simpa using Nat.lt_succ_iff.mp (Nat.lt_of_lt_of_le (Nat.lt_succ_self _) hf))]
        simp [List.takeWhile_cons, List.dropWhile_cons, hx]
      · have h1 : groupDrainAux f (fuel + 1) gv none ⟨x :: rest, lg, none⟩
            = ([], ⟨rest, lg, some (f x, x)⟩) := by
          simp only [groupDrainAux, groupNext, hx, if_neg, ite_false]
        rw [h1]
        simp [List.takeWhile_cons, List.dropWhile_cons, hx]

theorem groupDrain_seeded (f : E → G) [DecidableEq G] (gv : G) (e : E)
    (iter : List E) (lg : Option G) :
    groupDrain f gv (some e) ⟨iter, lg, none⟩
      = (e :: iter.takeWhile (fun x => decide (f x = gv)),
         match iter.dropWhile (fun x => decide (f x = gv)) with
         | [] => ⟨[], lg, none⟩
         | x :: r => ⟨r, lg, some (f x, x)⟩) := by
  have h0 : groupDrain f gv (some e) ⟨iter, lg, none⟩
      = groupDrainAux f (iter.length + 1 + 1) gv (some e) ⟨iter, lg, none⟩ := rfl
  rw [h0, groupDrainAux_seed_step, groupDrainAux_none f gv iter lg (iter.length + 1) (le_refl _)]

theorem groupByDrainAux_nil (f : E → G) [DecidableEq G] (F : Nat)
    (lg : Option G) : groupByDrainAux f F ⟨[], lg, none⟩ = [] := by
  match F with
  | 0 => rfl
  | F + 1 =>
    cases lg with
    | none => rfl
    | some g => rfl

theorem runs_nil (f : E → G) [DecidableEq G] : runs f ([] : List E) = [] := by
  rw [runs]

theorem runs_cons (f : E → G) [DecidableEq G] (e : E) (rest : List E) :
    runs f (e :: rest)
      = (f e, e :: rest.takeWhile (fun x => decide (f x = f e))) ::
          runs f (rest.dropWhile (fun x => decide (f x = f e))) := by
  rw [runs]

theorem groupByDrainAux_pushback_step (f : E → G) [DecidableEq G] (F : Nat)
    (r : List E) (lg : Option G) (g : G) (e : E) :
    groupByDrainAux f (F + 1) ⟨r, lg, some (g, e)⟩
      = (g, (groupDrain f g (some e) ⟨r, lg, none⟩).1) ::
          groupByDrainAux f F (groupDrain f g (some e) ⟨r, lg, none⟩).2 := rfl

/-- Under the full-drain discipline, starting from a state where a fresh
group with key `g` is seeded with `e`, the collected output is exactly the
runs of `e :: iter`. -/
theorem groupBy_continue (f : E → G) [DecidableEq G] :
    ∀ (n : Nat) (iter : List E), iter.length ≤ n →
      ∀ (lg : Option G) (g : G) (e : E), f e = g →
        ∀ (F : Nat), iter.length + 1 ≤ F →
          (g, (groupDrain f g (some e) ⟨iter, lg, none⟩).1) ::
              groupByDrainAux f F (groupDrain f g (some e) ⟨iter, lg, none⟩).2
            = runs f (e :: iter) := by
  intro n
  induction n with
  | zero =>
    intro iter hn lg g e hg F hF
    have hiter : iter = [] := List.length_eq_zero.mp (Nat.le_zero.mp hn)
    subst hiter
    rw [groupDrain_seeded]
    simp only [List.takeWhile_nil, List.dropWhile_nil]
    rw [groupByDrainAux_nil, runs_cons]
    simp only [List.takeWhile_nil, List.dropWhile_nil, hg, runs_nil]
  | succ n ih =>
    intro iter hn lg g e hg F hF
    rw [groupDrain_seeded]
    rcases hdw : iter.dropWhile (fun x => decide (f x = g)) with _ | ⟨x, r⟩
    · -- the run reaches the end of the input
      simp only
      rw [groupByDrainAux_nil, runs_cons]
      simp only [hg]
      rw [hdw, runs_nil]
    · -- the next run starts at x
      have hlen : r.length + 1 ≤ iter.length := by
        have h := length_dropWhile_le (fun x => decide (f x = g)) iter
        rw [hdw] at h
        simpa using h
      simp only
      match F, hF with
      | F + 1, hF =>
        rw [groupByDrainAux_pushback_step,
          ih r (by omega) lg (f x) x rfl F (by omega)]
        conv_rhs => rw [runs_cons]
        simp only [hg]
        rw [hdw]

theorem dropWhile_head_false (p : α → Bool) :
    ∀ (l : List α) (x : α) (r : List α), l.dropWhile p = x :: r → p x = false := by
  intro l
  induction l with
  | nil => intro x r h; simp at h
  | cons a l ih =>
    intro x r h
    rw [List.dropWhile_cons] at h
    by_cases ha : p a
    · simp only [ha, if_true] at h; exact ih x r h
    · simp only [ha, if_false] at h
      cases h
      simpa using ha

theorem runs_flatten_aux (f : E → G) [DecidableEq G] :
    ∀ (n : Nat) (S : List E), S.length ≤ n →
      ((runs f S).map Prod.snd).flatten = S := by
  intro n
  induction n with
  | zero =>
    intro S hn
    have : S = [] := List.length_eq_zero.mp (Nat.le_zero.mp hn)
    subst this
    rw [runs_nil]; rfl
  | succ n ih =>
    intro S hn
    cases S with
    | nil => rw [runs_nil]; rfl
    | cons e rest =>
      rw [runs_cons]
      simp only [List.map_cons, List.flatten_cons]
      rw [ih _ (by
        have := length_dropWhile_le (fun x => decide (f x = f e)) rest
        simp only [List.length_cons] at hn
        omega)]
      simp [List.takeWhile_append_dropWhile]

theorem runs_keys_aux (f : E → G) [DecidableEq G] :
    ∀ (n : Nat) (S : List E), S.length ≤ n →
      ∀ p ∈ runs f S, ∀ x ∈ p.2, f x = p.1 := by
  intro n
  induction n with
  | zero =>
    intro S hn
    have : S = [] := List.length_eq_zero.mp (Nat.le_zero.mp hn)
    subst this
    rw [runs_nil]
    intro p hp
    simp at hp
  | succ n ih =>
    intro S hn
    cases S with
    | nil =>
      rw [runs_nil]; intro p hp; simp at hp
    | cons e rest =>
      rw [runs_cons]
      intro p hp
      rcases List.mem_cons.mp hp with hp | hp
      · subst hp
        intro x hx
        rcases List.mem_cons.mp hx with hx | hx
        · subst hx; rfl
        · have := List.mem_takeWhile_imp hx
          simpa using this
      · exact ih _ (by
          have := length_dropWhile_le (fun x => decide (f x = f e)) rest
          simp only [List.length_cons] at hn
          omega) p hp

theorem runs_chain_aux (f : E → G) [DecidableEq G] :
    ∀ (n : Nat) (S : List E), S.length ≤ n →
      List.Chain' (fun p q => p.1 ≠ q.1) (runs f S) := by
  intro n
  induction n with
  | zero =>
    intro S hn
    have : S = [] := List.length_eq_zero.mp (Nat.le_zero.mp hn)
    subst this
    rw [runs_nil]
    exact List.chain'_nil
  | succ n ih =>
    intro S hn
    cases S with
    | nil => rw [runs_nil]; exact List.chain'_nil
    | cons e rest =>
      rw [runs_cons]
      have hlen : (rest.dropWhile (fun x => decide (f x = f e))).length ≤ n := by
        have := length_dropWhile_le (fun x => decide (f x = f e)) rest
        simp only [List.length_cons] at hn
        omega
      rw [List.chain'_cons']
      refine ⟨?_, ih _ hlen⟩
      intro q hq
      rcases hdw : rest.dropWhile (fun x => decide (f x = f e)) with _ | ⟨x, r⟩
      · rw [hdw, runs_nil] at hq
        simp at hq
      · rw [hdw, runs_cons] at hq
        simp only [List.head?_cons, Option.mem_def, Option.some.injEq] at hq
        subst hq
        have hx := dropWhile_head_false _ rest x r hdw
        simp only [decide_eq_false_iff_not] at hx
        simp only [ne_eq]
        intro hc
        exact hx hc.symm

theorem groupByDrainAll_eq_runs (f : E → G) [DecidableEq G] (S : List E) :
    groupByDrainAll f S = runs f S := by
  cases S with
  | nil => rw [runs_nil]; rfl
  | cons e rest =>
    have h0 : groupByDrainAll f (e :: rest)
        = groupByDrainAux f (rest.length + 1 + 1) ⟨e :: rest, none, none⟩ := rfl
    have h1 : groupByDrainAux f (rest.length + 1 + 1) ⟨e :: rest, none, none⟩
        = (f e, (groupDrain f (f e) (some e) ⟨rest, some (f e), none⟩).1) ::
            groupByDrainAux f (rest.length + 1)
              (groupDrain f (f e) (some e) ⟨rest, some (f e), none⟩).2 := rfl
    rw [h0, h1,
      groupBy_continue f rest.length rest (le_refl _) (some (f e)) (f e) e rfl
        (rest.length + 1) (le_refl _)]

/-- C2: GroupBy run-partition completeness.  Under the full-drain
discipline the `(key, drained elements)` pairs produced by
`group_by(S, f)` are exactly the maximal runs of `S` under `f`:
concatenating all groups' elements reconstructs `S`, every element of a
group maps to its key, and adjacent groups have different keys. -/
theorem groupBy_run_partition_completeness (f : E → G) [DecidableEq G]
    (S : List E) :
    groupByDrainAll f S = runs f S ∧
    ((runs f S).map Prod.snd).flatten = S ∧
    (∀ p ∈ runs f S, ∀ x ∈ p.2, f x = p.1) ∧
    List.Chain' (fun p q => p.1 ≠ q.1) (runs f S) :=
  ⟨groupByDrainAll_eq_runs f S,
   runs_flatten_aux f S.length S (le_refl _),
   runs_keys_aux f S.length S (le_refl _),
   runs_chain_aux f S.length S (le_refl _)⟩

/-- C3 (failing input): in the abandonment scenario on
`S = [0,1,2,3,5,4,6,8,7]` with parity keys — drain the groups
`(0,[0])`, `(1,[1])`, `(0,[2])` fully, pull the fourth pair
`(1, group seeded with 3)`, read only `3` from it and abandon it — the next
outer pair produced by the code is `(1, [5])`: the remainder of the
abandoned run is replayed as a fresh group, instead of being skipped to
give `(0, [4,6,8])` as the spec requires.  The cause is that the
`push_back` branch of `GroupBy::next` never updates `last_group`, so the
skip loop compares against a stale key. -/
theorem groupBy_abandonment_stale_last_group :
    groupByAbandonScenario (fun n => n % 2) [0, 1, 2, 3, 5, 4, 6, 8, 7]
      = some (1, [5]) ∧
    some (1, [5]) ≠ some ((0 : Nat), [4, 6, 8]) := by
  constructor
  · rfl
  · decide

/-! ## CartesianProduct (src/iter/cartesian_product.rs) -/

structure CPState (A B : Type) where
  left : List A
  right : List B
  right_checkpoint : List B
  left_value : Option A
  deriving Repr, DecidableEq

/-- The `loop` body of `CartesianProduct::next`, one recursive call per
loop iteration; the outer `none` means the fuel ran out (the loop would
keep going), `some none` is iterator exhaustion, `some (some _)` a yielded
pair with the updated state. -/
def cpNextAux : Nat → CPState A B → Option (Option ((A × B) × CPState A B))
  | 0, _ => none
  | fuel + 1, s =>
    match s.left_value, s.right with
    | some e0, e1 :: r => some (some ((e0, e1), { s with right := r }))
    | some _, [] =>
      -- right exhausted: clear left_value, reset right from the checkpoint,
      -- then pull left within the same iteration
      (match s.left with
       | e0 :: l =>
         cpNextAux fuel
           { left := l, right := s.right_checkpoint,
             right_checkpoint := s.right_checkpoint, left_value := some e0 }
       | [] => some none)
    | none, _ =>
      (match s.left with
       | e0 :: l => cpNextAux fuel { s with left := l, left_value := some e0 }
       | [] => some none)

/-- `CartesianProduct::next`: the loop runs at most `left.length + 1`
iterations (each non-returning iteration consumes one left element). -/
def cpNext (s : CPState A B) : Option ((A × B) × CPState A B) :=
  (cpNextAux (s.left.length + 1) s).join

/-- Driver: fully drain the product iterator. -/
def cpDrainAux : Nat → CPState A B → List (A × B)
  | 0, _ => []
  | fuel + 1, s =>
    match cpNext s with
    | some (p, s') => p :: cpDrainAux fuel s'
    | none => []

def cpDrain (s : CPState A B) : List (A × B) :=
  cpDrainAux (s.right.length + s.left.length * s.right_checkpoint.length + 1) s

/-- `CartesianProductIterator::cartesian_product`: both `right` and the
checkpoint start as clones of the right iterator. -/
def cartesianProduct (left : List A) (right : List B) : CPState A B :=
  ⟨left, right, right, none⟩

def combine_bounds_with_partial_row (b0 b1 bc : Nat) : Nat := b1 + b0 * bc

def combine_bounds_without_partial_row (b0 : Nat) (_b1 bc : Nat) : Nat := b0 * bc

/-- `CartesianProduct::size_hint`.  A Lean `List` iterator reports the
exact hint `(len, Some len)`, so all three wrapped hints are exact. -/
def cpSizeHint (s : CPState A B) : Nat × Option Nat :=
  let l0 := s.left.length
  let mu0 : Option Nat := some s.left.length
  let l1 := s.right.length
  let mu1 : Option Nat := some s.right.length
  let lc := s.right_checkpoint.length
  let muc : Option Nat := some s.right_checkpoint.length
  let combine_bounds : Nat → Nat → Nat → Nat :=
    if s.left_value.isSome then combine_bounds_with_partial_row
    else combine_bounds_without_partial_row
  let l := combine_bounds l1 l0 lc
  let mu := match mu0, mu1, muc with
    | none, _, _ => none
    | _, none, _ => none
    | _, _, none => none
    | some u0, some u1, some uc => some (combine_bounds u1 u0 uc)
  (l, mu)

/-- Row-major reference product: for each left element in order, all right
elements in order. -/
def rowMajorPairs (A : List α) (B : List β) : List (α × β) :=
  (A.map (fun a => B.map (fun b => (a, b)))).flatten

theorem cpNext_pair (left : List A) (b : B) (r cp : List B) (a : A) :
    cpNext ⟨left, b :: r, cp, some a⟩ = some ((a, b), ⟨left, r, cp, some a⟩) := rfl

theorem cpNext_refill (l : List A) (a a' : A) (cp : List B) :
    cpNext ⟨a' :: l, [], cp, some a⟩ = cpNext ⟨l, cp, cp, some a'⟩ := rfl

theorem cpNext_exhausted (cp : List B) (a : A) :
    cpNext ⟨([] : List A), [], cp, some a⟩ = none := rfl

theorem cpNext_pull_left (a : A) (l : List A) (r cp : List B) :
    cpNext ⟨a :: l, r, cp, none⟩ = cpNext ⟨l, r, cp, some a⟩ := rfl

theorem cpNext_left_nil (r cp : List B) :
    cpNext ⟨([] : List A), r, cp, none⟩ = none := rfl

theorem cpDrainAux_succ (F : Nat) (s : CPState A B) :
    cpDrainAux (F + 1) s
      = match cpNext s with
        | some (p, s') => p :: cpDrainAux F s'
        | none => [] := rfl

theorem cpDrainAux_seeded {A B : Type} (cp : List B) :
    ∀ (left : List A) (r : List B) (a : A) (fuel : Nat),
      r.length + left.length * cp.length + 1 ≤ fuel →
      cpDrainAux fuel ⟨left, r, cp, some a⟩
        = r.map (fun b => (a, b)) ++ rowMajorPairs left cp := by
  intro left
  induction left with
  | nil =>
    intro r
    induction r with
    | nil =>
      intro a fuel hf
      match fuel, hf with
      | fuel + 1, _ =>
        rw [cpDrainAux_succ, cpNext_exhausted]
        simp [rowMajorPairs]
    | cons b r ihr =>
      intro a fuel hf
      match fuel, hf with
      | fuel + 1, hf =>
        simp only [cpDrainAux_succ, cpNext_pair]
        rw [ihr a fuel (by simp only [List.length_cons] at hf ⊢; omega)]
        simp
  | cons a' l ihl =>
    intro r
    induction r with
    | nil =>
      intro a fuel hf
      match fuel, hf with
      | fuel + 1, hf =>
        have hx : cpDrainAux (fuel + 1) (⟨a' :: l, [], cp, some a⟩ : CPState A B)
            = cpDrainAux (fuel + 1) ⟨l, cp, cp, some a'⟩ := by
          rw [cpDrainAux_succ, cpDrainAux_succ, cpNext_refill]
        have hf' : cp.length + l.length * cp.length + 1 ≤ fuel + 1 := by
          rw [List.length_nil, List.length_cons, Nat.succ_mul] at hf
          omega
        rw [hx, ihl cp a' (fuel + 1) hf']
        simp [rowMajorPairs]
    | cons b r ihr =>
      intro a fuel hf
      match fuel, hf with
      | fuel + 1, hf =>
        simp only [cpDrainAux_succ, cpNext_pair]
        rw [ihr a fuel (by simp only [List.length_cons] at hf ⊢; omega)]
        simp

/-- C4: CartesianProduct row-major completeness.  Draining
`cartesian_product(A, B)` yields exactly the `|A| * |B|` pairs
`(A[i], B[j])` in row-major order (`i` outer, `j` inner); in particular
the output is empty when `B` is empty, and the drain terminates. -/
theorem cartesianProduct_row_major {α β : Type} (A : List α) (B : List β) :
    cpDrain (cartesianProduct A B) = rowMajorPairs A B := by
  cases A with
  | nil =>
    have h : cpDrain (cartesianProduct ([] : List α) B) = [] := by
      have h0 : cpDrain (cartesianProduct ([] : List α) B)
          = cpDrainAux (B.length + 0 * B.length + 1) ⟨[], B, B, none⟩ := rfl
      rw [h0, cpDrainAux_succ, cpNext_left_nil]
    rw [h]
    simp [rowMajorPairs]
  | cons a l =>
    have hx : cpDrain (cartesianProduct (a :: l) B)
        = cpDrainAux (B.length + (a :: l).length * B.length + 1)
            ⟨l, B, B, some a⟩ := by
      have h0 : cpDrain (cartesianProduct (a :: l) B)
          = cpDrainAux (B.length + (a :: l).length * B.length + 1)
              ⟨a :: l, B, B, none⟩ := rfl
      rw [h0, cpDrainAux_succ, cpDrainAux_succ, cpNext_pull_left]
    rw [hx, cpDrainAux_seeded B l B a _
      (by rw [List.length_cons, Nat.succ_mul]; omega)]
    simp [rowMajorPairs]

/-- C10: a single `CartesianProduct::next` call terminates whenever the
left sequence is finite — the loop runs at most `left.length + 1`
iterations (first conjunct: with that much fuel the loop always returns);
but with an empty right/checkpoint sequence the loop consumes one left
element per iteration without returning, so on an infinite left sequence
it would never return (second conjunct: no fuel bounded by the left length
suffices). -/
theorem cartesianProduct_next_termination {A B : Type} :
    (∀ (fuel : Nat) (s : CPState A B), s.left.length + 1 ≤ fuel →
      (cpNextAux fuel s).isSome) ∧
    (∀ (fuel : Nat) (left : List A) (a : A), fuel ≤ left.length →
      cpNextAux fuel (⟨left, [], [], some a⟩ : CPState A B) = none) := by
  constructor
  · intro fuel
    induction fuel with
    | zero => intro s hs; omega
    | succ fuel ih =>
      intro s hs
      obtain ⟨left, right, cp, lv⟩ := s
      cases lv with
      | some e0 =>
        cases right with
        | cons e1 r => simp [cpNextAux]
        | nil =>
          cases left with
          | nil => simp [cpNextAux]
          | cons e0' l =>
            simp only [cpNextAux]
            exact ih _ (by simp at hs ⊢; omega)
      | none =>
        cases left with
        | nil => simp [cpNextAux]
        | cons e0' l =>
          simp only [cpNextAux]
          exact ih _ (by simp at hs ⊢; omega)
  · intro fuel
    induction fuel with
    | zero => intro left a _; rfl
    | succ fuel ih =>
      intro left a hl
      cases left with
      | nil => simp at hl
      | cons a' l =>
        simp only [cpNextAux]
        exact ih l a' (by simp at hl; omega)

/-- Witness for C10 at concrete inputs: a next call on
`cartesian_product([0,1], [5])` terminates with fuel 3, and with empty
right sequences the loop exhausts fuel 2 on a left sequence of length 2. -/
theorem cartesianProduct_next_termination_witness :
    ((⟨[0, 1], [5], [5], none⟩ : CPState Nat Nat).left.length + 1 ≤ 3 ∧
      (cpNextAux 3 (⟨[0, 1], [5], [5], none⟩ : CPState Nat Nat)).isSome) ∧
    ((2 : Nat) ≤ ([0, 1] : List Nat).length ∧
      cpNextAux 2 (⟨[0, 1], [], [], some 7⟩ : CPState Nat Nat) = none) :=
  ⟨⟨by decide, cartesianProduct_next_termination.1 3 ⟨[0, 1], [5], [5], none⟩ (by decide)⟩,
   ⟨by decide, cartesianProduct_next_termination.2 2 [0, 1] 7 (by decide)⟩⟩

/-- C7 (failing input): `CartesianProduct::size_hint` does not return the
number of remaining pairs even when all wrapped hints are exact.  On the
fresh `cartesian_product([0,1,2], [3,4])` (no partial row) it reports
`(4, Some 4)` although 6 pairs remain (the claimed formula gives
`3 * 2 = 6`); after one pull (partial row: left value `0` held, right
`[4]`) it again reports `(4, Some 4)` although 5 pairs remain (the claimed
formula gives `1 + 2*2 = 5`).  The call site passes `(right, left,
checkpoint)` bounds to helpers written for `(left, right, checkpoint)`. -/
theorem cartesianProduct_size_hint_swapped :
    cpSizeHint (cartesianProduct ([0, 1, 2] : List Nat) ([3, 4] : List Nat))
        = (4, some 4) ∧
    (cpDrain (cartesianProduct ([0, 1, 2] : List Nat) ([3, 4] : List Nat))).length = 6 ∧
    cpSizeHint (⟨[1, 2], [4], [3, 4], some 0⟩ : CPState Nat Nat) = (4, some 4) ∧
    (cpDrain (⟨[1, 2], [4], [3, 4], some 0⟩ : CPState Nat Nat)).length = 5 := by
  refine ⟨rfl, rfl, rfl, rfl⟩

/-! ## PacingWalk (src/iter/pacing_walk.rs)

`usize` is modelled as `Nat` with the 64-bit bound made explicit:
`checked_add` / `checked_mul` return `none` past `USIZE_MAX` like their Rust
namesakes, and the plain `usize` subtraction/addition of the source are
modelled as `Except`, erroring exactly where Rust would panic on
under/overflow. -/

def USIZE_MAX : Nat := 2 ^ 64 - 1

def checked_add (a b : Nat) : Option Nat :=
  if a + b ≤ USIZE_MAX then some (a + b) else none

def checked_mul (a b : Nat) : Option Nat :=
  if a * b ≤ USIZE_MAX then some (a * b) else none

def usize_sub (a b : Nat) : Except String Nat :=
  if b ≤ a then .ok (a - b) else .error "attempt to subtract with overflow"

def usize_add (a b : Nat) : Except String Nat :=
  if a + b ≤ USIZE_MAX then .ok (a + b) else .error "attempt to add with overflow"

/-- The `stop_pos` computation at the top of `PacingWalk::next`
(`iter_len - self.start_at` is the plain, panicking subtraction;
the checked multiply/add saturate to `usize::MAX` via `unwrap_or`).
`iter_len - left_len` cannot underflow once the first subtraction
succeeded, so plain `Nat` subtraction is faithful there. -/
def pacingStopPos (iter_len start_at : Nat) : Except String Nat :=
  match usize_sub iter_len start_at with
  | .error msg => .error msg
  | .ok left_len =>
    .ok (((checked_mul 2 (max left_len (iter_len - left_len))).bind
      (fun l => checked_add l 1)).getD USIZE_MAX)

/-- `PacingWalk::next` as a function of the step counter `pos`; the `self.next()`
skip recursion is fuelled, the wrapper below supplying `stop_pos - pos`
fuel, which exactly bounds the recursion depth (each recursive call
increments `pos`, and the entry check stops at `stop_pos`).  Yields the
element and the updated `pos`.  `start_at - mag` is the source's plain
subtraction, guarded by the preceding `mag > start_at` skip check, so plain
`Nat` subtraction is faithful; `start_at + mag` is modelled as the
panicking `usize` addition. -/
def pacingWalkNextAux (it : List E) (start_at stop_pos : Nat) :
    Nat → Nat → Except String (Option (E × Nat))
  | 0, _ => .ok none
  | fuel + 1, pos =>
    if stop_pos ≤ pos then .ok none
    else
      -- jitter_right = (pos & 1) != 0; mag = (pos + 1) / 2, with the
      -- overflowed case answered directly
      let mag := ((checked_add pos 1).map (fun l => l / 2)).getD (USIZE_MAX / 2 + 1)
      if pos % 2 = 0 then
        if start_at < mag then
          match checked_add pos 1 with
          | none => .ok none
          | some pos' => pacingWalkNextAux it start_at stop_pos fuel pos'
        else
          match it[start_at - mag]? with
          | none => .ok none
          | some e =>
            match checked_add pos 1 with
            | none => .ok none
            | some pos' => .ok (some (e, pos'))
      else
        match usize_sub it.length start_at with
        | .error msg => .error msg
        | .ok right_len =>
          if right_len ≤ mag then
            match checked_add pos 1 with
            | none => .ok none
            | some pos' => pacingWalkNextAux it start_at stop_pos fuel pos'
          else
            match usize_add start_at mag with
            | .error msg => .error msg
            | .ok idx =>
              match it[idx]? with
              | none => .ok none
              | some e =>
                match checked_add pos 1 with
                | none => .ok none
                | some pos' => .ok (some (e, pos'))

def pacingWalkNext (it : List E) (start_at pos : Nat) :
    Except String (Option (E × Nat)) :=
  match pacingStopPos it.length start_at with
  | .error msg => .error msg
  | .ok stop_pos => pacingWalkNextAux it start_at stop_pos (stop_pos - pos) pos

/-- Driver: drain the walk from step counter `pos`. -/
def pacingWalkDrainAux (it : List E) (start_at : Nat) :
    Nat → Nat → List E
  | 0, _ => []
  | fuel + 1, pos =>
    match pacingWalkNext it start_at pos with
    | .ok (some (e, pos')) => e :: pacingWalkDrainAux it start_at fuel pos'
    | _ => []

def pacingWalkDrain (it : List E) (start_at : Nat) : List E :=
  pacingWalkDrainAux it start_at (2 * it.length + 2) 0

/-- The index emitted at step counter `pos` (`none` when the step is
skipped): even steps jitter left to `start_at - pos/2`, odd steps jitter
right to `start_at + (pos+1)/2`, clipped at the bounds. -/
def pacingEmit (len s pos : Nat) : Option Nat :=
  if pos % 2 = 0 then
    if pos / 2 ≤ s then some (s - pos / 2) else none
  else
    if (pos + 1) / 2 < len - s then some (s + (pos + 1) / 2) else none

theorem USIZE_MAX_eq : USIZE_MAX = 18446744073709551615 := by
  norm_num [USIZE_MAX]

/-- The stop position saturates to `usize::MAX` instead of wrapping. -/
theorem pacingStopPos_eq (len s : Nat) (h1 : s ≤ len) :
    pacingStopPos len s
      = .ok (min (2 * max (len - s) s + 1) USIZE_MAX) := by
  have hsub : usize_sub len s = .ok (len - s) := by
    unfold usize_sub; rw [if_pos h1]
  have hs : len - (len - s) = s := by omega
  simp only [pacingStopPos, hsub]
  rw [hs]
  by_cases h2 : 2 * max (len - s) s ≤ USIZE_MAX
  · have h3 : 2 * max (len - s) s + 1 ≤ USIZE_MAX := by
      rw [USIZE_MAX_eq] at h2 ⊢
      omega
    rw [show checked_mul 2 (max (len - s) s) = some (2 * max (len - s) s) by
      unfold checked_mul; rw [if_pos h2]]
    rw [Option.some_bind]
    rw [show checked_add (2 * max (len - s) s) 1 = some (2 * max (len - s) s + 1) by
      unfold checked_add; rw [if_pos h3]]
    rw [Option.getD_some, min_eq_left h3]
  · rw [show checked_mul 2 (max (len - s) s) = none by
      unfold checked_mul; rw [if_neg h2]]
    rw [Option.none_bind, Option.getD_none]
    have : USIZE_MAX ≤ 2 * max (len - s) s + 1 := by omega
    rw [min_eq_right this]

/-- Every call of the fuelled skip loop returns `ok` (no panic), provided
`start_at` does not exceed the length and the length fits in `usize`. -/
theorem pacingWalkNextAux_no_panic {E : Type} (it : List E) (s stopv : Nat)
    (h1 : s ≤ it.length) (h2 : it.length ≤ USIZE_MAX) :
    ∀ (fuel pos : Nat), ∃ r, pacingWalkNextAux it s stopv fuel pos = .ok r := by
  intro fuel
  induction fuel with
  | zero => intro pos; exact ⟨none, rfl⟩
  | succ fuel ih =>
    intro pos
    simp only [pacingWalkNextAux]
    by_cases hstop : stopv ≤ pos
    · rw [if_pos hstop]; exact ⟨none, rfl⟩
    · rw [if_neg hstop]
      by_cases hpar : pos % 2 = 0
      · rw [if_pos hpar]
        by_cases hskip :
            s < ((checked_add pos 1).map (fun l => l / 2)).getD (USIZE_MAX / 2 + 1)
        · rw [if_pos hskip]
          cases hca : checked_add pos 1 with
          | none => exact ⟨none, rfl⟩
          | some pos' => exact ih pos'
        · rw [if_neg hskip]
          cases hget :
              it[s - ((checked_add pos 1).map (fun l => l / 2)).getD (USIZE_MAX / 2 + 1)]? with
          | none => exact ⟨none, rfl⟩
          | some e =>
            cases hca : checked_add pos 1 with
            | none => exact ⟨none, rfl⟩
            | some pos' => exact ⟨some (e, pos'), rfl⟩
      · rw [if_neg hpar]
        have hsub : usize_sub it.length s = .ok (it.length - s) := by
          unfold usize_sub; rw [if_pos h1]
        simp only [hsub]
        by_cases hskip :
            it.length - s ≤ ((checked_add pos 1).map (fun l => l / 2)).getD (USIZE_MAX / 2 + 1)
        · rw [if_pos hskip]
          cases hca : checked_add pos 1 with
          | none => exact ⟨none, rfl⟩
          | some pos' => exact ih pos'
        · rw [if_neg hskip]
          have hadd : usize_add s
              (((checked_add pos 1).map (fun l => l / 2)).getD (USIZE_MAX / 2 + 1))
              = .ok (s + ((checked_add pos 1).map (fun l => l / 2)).getD (USIZE_MAX / 2 + 1)) := by
            unfold usize_add
            rw [if_pos (by omega)]
          simp only [hadd]
          cases hget :
              it[s + ((checked_add pos 1).map (fun l => l / 2)).getD (USIZE_MAX / 2 + 1)]? with
          | none => exact ⟨none, rfl⟩
          | some e =>
            cases hca : checked_add pos 1 with
            | none => exact ⟨none, rfl⟩
            | some pos' => exact ⟨some (e, pos'), rfl⟩

/-- C8: PacingWalk overflow policy.  With `start_at ≤ len ≤ usize::MAX`:
the stop-position computation saturates to `usize::MAX` instead of
wrapping; every `next()` call returns `ok` (no panic on the step-counter
arithmetic); and once the step counter reaches a position past which it
cannot advance (`pos ≥ usize::MAX ≥ stop_pos`) `next()` reports
exhaustion rather than wrapping the counter. -/
theorem pacingWalk_overflow_policy {E : Type} (it : List E) (s : Nat)
    (h1 : s ≤ it.length) (h2 : it.length ≤ USIZE_MAX) :
    pacingStopPos it.length s
        = .ok (min (2 * max (it.length - s) s + 1) USIZE_MAX) ∧
    (∀ pos, ∃ r, pacingWalkNext it s pos = .ok r) ∧
    (∀ pos, USIZE_MAX ≤ pos → pacingWalkNext it s pos = .ok none) := by
  refine ⟨pacingStopPos_eq it.length s h1, ?_, ?_⟩
  · intro pos
    simp only [pacingWalkNext, pacingStopPos_eq it.length s h1]
    exact pacingWalkNextAux_no_panic it s _ h1 h2 _ pos
  · intro pos hpos
    simp only [pacingWalkNext, pacingStopPos_eq it.length s h1]
    have hz : min (2 * max (it.length - s) s + 1) USIZE_MAX - pos = 0 := by
      have : min (2 * max (it.length - s) s + 1) USIZE_MAX ≤ USIZE_MAX :=
        min_le_right _ _
      omega
    rw [hz]
    rfl

/-- Witness for C8 on `it = [3, 1, 4]`, `start_at = 1`. -/
theorem pacingWalk_overflow_policy_witness :
    ((1 : Nat) ≤ ([3, 1, 4] : List Nat).length ∧
      ([3, 1, 4] : List Nat).length ≤ USIZE_MAX) ∧
    (pacingStopPos ([3, 1, 4] : List Nat).length 1
        = .ok (min (2 * max (([3, 1, 4] : List Nat).length - 1) 1 + 1) USIZE_MAX) ∧
    (∀ pos, ∃ r, pacingWalkNext ([3, 1, 4] : List Nat) 1 pos = .ok r) ∧
    (∀ pos, USIZE_MAX ≤ pos →
      pacingWalkNext ([3, 1, 4] : List Nat) 1 pos = .ok none)) :=
  ⟨⟨by decide, by decide⟩,
   pacingWalk_overflow_policy [3, 1, 4] 1 (by decide) (by decide)⟩

theorem pacingStopPos_exact {E : Type} (it : List E) (s : Nat)
    (hs : s < it.length) (hU : 2 * it.length + 1 ≤ USIZE_MAX) :
    pacingStopPos it.length s = .ok (2 * max (it.length - s) s + 1) := by
  rw [pacingStopPos_eq it.length s (le_of_lt hs)]
  have h : 2 * max (it.length - s) s + 1 ≤ USIZE_MAX := by
    have hmx : max (it.length - s) s ≤ it.length := by omega
    omega
  rw [min_eq_left h]

theorem pacingWalkNext_stopped {E : Type} (it : List E) (s pos v : Nat)
    (h : pacingStopPos it.length s = .ok v) (hv : v ≤ pos) :
    pacingWalkNext it s pos = .ok none := by
  simp only [pacingWalkNext, h]
  rw [show v - pos = 0 by omega]
  rfl

theorem pacingWalkNext_emit {E : Type} (it : List E) (s pos i : Nat)
    (hs : s < it.length) (hU : 2 * it.length + 1 ≤ USIZE_MAX)
    (hpos : pos < 2 * max (it.length - s) s + 1)
    (hemit : pacingEmit it.length s pos = some i) :
    i < it.length ∧
    ∃ e, it[i]? = some e ∧ pacingWalkNext it s pos = .ok (some (e, pos + 1)) := by
  have hmx : max (it.length - s) s ≤ it.length := by omega
  have hposU : pos + 1 ≤ USIZE_MAX := by omega
  have hca : checked_add pos 1 = some (pos + 1) := by
    unfold checked_add; rw [if_pos hposU]
  obtain ⟨k, hk⟩ : ∃ k, 2 * max (it.length - s) s + 1 - pos = k + 1 :=
    ⟨2 * max (it.length - s) s - pos, by omega⟩
  simp only [pacingWalkNext, pacingStopPos_exact it s hs hU]
  rw [hk]
  simp only [pacingWalkNextAux, hca, Option.map_some', Option.getD_some]
  rw [if_neg (by omega : ¬ 2 * max (it.length - s) s + 1 ≤ pos)]
  unfold pacingEmit at hemit
  rcases Nat.mod_two_eq_zero_or_one pos with hpar | hpar
  · -- even step: jitter left
    rw [if_pos hpar] at hemit ⊢
    by_cases hle : pos / 2 ≤ s
    · rw [if_pos hle] at hemit
      have hi : i = s - pos / 2 := (Option.some.inj hemit).symm
      subst hi
      have hmag : (pos + 1) / 2 = pos / 2 := by omega
      rw [hmag, if_neg (by omega : ¬ s < pos / 2)]
      obtain ⟨e, hget⟩ : ∃ e, it[s - pos / 2]? = some e := by
        rw [List.getElem?_eq_getElem (by omega)]
        exact ⟨_, rfl⟩
      refine ⟨by omega, e, hget, ?_⟩
      simp only [hget, hca]
    · rw [if_neg hle] at hemit
      exact absurd hemit (by simp)
  · -- odd step: jitter right
    have hpar0 : ¬ pos % 2 = 0 := by omega
    rw [if_neg hpar0] at hemit ⊢
    by_cases hlt : (pos + 1) / 2 < it.length - s
    · rw [if_pos hlt] at hemit
      have hi : i = s + (pos + 1) / 2 := (Option.some.inj hemit).symm
      subst hi
      have hsub : usize_sub it.length s = .ok (it.length - s) := by
        unfold usize_sub; rw [if_pos (by omega)]
      simp only [hsub]
      rw [if_neg (by omega : ¬ it.length - s ≤ (pos + 1) / 2)]
      have hadd : usize_add s ((pos + 1) / 2) = .ok (s + (pos + 1) / 2) := by
        unfold usize_add
        rw [if_pos (by omega : s + (pos + 1) / 2 ≤ USIZE_MAX)]
      simp only [hadd]
      obtain ⟨e, hget⟩ : ∃ e, it[s + (pos + 1) / 2]? = some e := by
        rw [List.getElem?_eq_getElem (by omega)]
        exact ⟨_, rfl⟩
      refine ⟨by omega, e, hget, ?_⟩
      simp only [hget, hca]
    · rw [if_neg hlt] at hemit
      exact absurd hemit (by simp)

theorem pacingWalkNext_skip {E : Type} (it : List E) (s pos : Nat)
    (hs : s < it.length) (hU : 2 * it.length + 1 ≤ USIZE_MAX)
    (hpos : pos < 2 * max (it.length - s) s + 1)
    (hemit : pacingEmit it.length s pos = none) :
    pacingWalkNext it s pos = pacingWalkNext it s (pos + 1) := by
  have hmx : max (it.length - s) s ≤ it.length := by omega
  have hposU : pos + 1 ≤ USIZE_MAX := by omega
  have hca : checked_add pos 1 = some (pos + 1) := by
    unfold checked_add; rw [if_pos hposU]
  obtain ⟨k, hk⟩ : ∃ k, 2 * max (it.length - s) s + 1 - pos = k + 1 :=
    ⟨2 * max (it.length - s) s - pos, by omega⟩
  have hk' : 2 * max (it.length - s) s + 1 - (pos + 1) = k := by omega
  simp only [pacingWalkNext, pacingStopPos_exact it s hs hU]
  rw [hk, hk']
  conv_lhs => simp only [pacingWalkNextAux, hca, Option.map_some', Option.getD_some]
  rw [if_neg (by omega : ¬ 2 * max (it.length - s) s + 1 ≤ pos)]
  unfold pacingEmit at hemit
  rcases Nat.mod_two_eq_zero_or_one pos with hpar | hpar
  · rw [if_pos hpar] at hemit ⊢
    by_cases hle : pos / 2 ≤ s
    · rw [if_pos hle] at hemit
      exact absurd hemit (by simp)
    · have hmag : (pos + 1) / 2 = pos / 2 := by omega
      rw [hmag, if_pos (by omega : s < pos / 2)]
  · have hpar0 : ¬ pos % 2 = 0 := by omega
    rw [if_neg hpar0] at hemit ⊢
    by_cases hlt : (pos + 1) / 2 < it.length - s
    · rw [if_pos hlt] at hemit
      exact absurd hemit (by simp)
    · have hsub : usize_sub it.length s = .ok (it.length - s) := by
        unfold usize_sub; rw [if_pos (by omega)]
      simp only [hsub]
      rw [if_pos (by omega : it.length - s ≤ (pos + 1) / 2)]

theorem pacingWalkDrainAux_spec {E : Type} (it : List E) (s : Nat)
    (hs : s < it.length) (hU : 2 * it.length + 1 ≤ USIZE_MAX) :
    ∀ (K pos F : Nat), 2 * max (it.length - s) s + 1 - pos = K →
      2 * max (it.length - s) s + 1 - pos + 1 ≤ F →
      pacingWalkDrainAux it s F pos
        = (List.range' pos K).filterMap
            (fun q => (pacingEmit it.length s q).bind (fun i => it[i]?)) := by
  intro K
  induction K using Nat.strong_induction_on with
  | _ K ih =>
    intro pos F hK hF
    by_cases hpos : 2 * max (it.length - s) s + 1 ≤ pos
    · have hK0 : K = 0 := by omega
      subst hK0
      rcases F with _ | F
      · omega
      · simp only [pacingWalkDrainAux]
        rw [pacingWalkNext_stopped it s pos _ (pacingStopPos_exact it s hs hU) hpos]
        rfl
    · push_neg at hpos
      obtain ⟨K', rfl⟩ : ∃ K', K = K' + 1 := ⟨K - 1, by omega⟩
      rcases F with _ | F
      · omega
      · cases hemit : pacingEmit it.length s pos with
        | none =>
          have hstep : pacingWalkDrainAux it s (F + 1) pos
              = pacingWalkDrainAux it s (F + 1) (pos + 1) := by
            simp only [pacingWalkDrainAux]
            rw [pacingWalkNext_skip it s pos hs hU hpos hemit]
          rw [hstep, ih K' (Nat.lt_succ_self K') (pos + 1) (F + 1) (by omega) (by omega)]
          rw [List.range'_succ]
          simp [List.filterMap_cons, hemit]
        | some i =>
          obtain ⟨hilt, e, hget, hnext⟩ :=
            pacingWalkNext_emit it s pos i hs hU hpos hemit
          simp only [pacingWalkDrainAux, hnext]
          rw [ih K' (Nat.lt_succ_self K') (pos + 1) F (by omega) (by omega)]
          rw [List.range'_succ]
          simp [List.filterMap_cons, hemit, hget]

/-- The full drain is the emitted-index sequence of positions `0 ≤ pos <
stop_pos`, looked up in the list. -/
theorem pacingWalkDrain_spec {E : Type} (it : List E) (s : Nat)
    (hs : s < it.length) (hU : 2 * it.length + 1 ≤ USIZE_MAX) :
    pacingWalkDrain it s
      = (List.range' 0 (2 * max (it.length - s) s + 1)).filterMap
          (fun q => (pacingEmit it.length s q).bind (fun i => it[i]?)) := by
  have hmx : max (it.length - s) s ≤ it.length := by omega
  exact pacingWalkDrainAux_spec it s hs hU _ 0 (2 * it.length + 2)
    (by omega) (by omega)

theorem filter_even_range (m : Nat) :
    (List.range (2 * m + 1)).filter (fun p => decide (p % 2 = 0))
      = (List.range (m + 1)).map (fun k => 2 * k) := by
  induction m with
  | zero => rfl
  | succ m ih =>
    have h1 : 2 * (m + 1) + 1 = (2 * m + 1) + 1 + 1 := by ring
    rw [h1, List.range_succ, List.range_succ, List.filter_append,
      List.filter_append, ih, List.range_succ, List.map_append]
    have hodd : ¬ ((2 * m + 1) % 2 = 0) := by omega
    have heven : (2 * m + 1 + 1) % 2 = 0 := by omega
    simp [hodd, heven, List.range_succ, show 2 * (m + 1) = 2 * m + 1 + 1 by ring]

theorem filter_odd_range (m : Nat) :
    (List.range (2 * m + 1)).filter (fun p => !decide (p % 2 = 0))
      = (List.range m).map (fun k => 2 * k + 1) := by
  induction m with
  | zero => rfl
  | succ m ih =>
    have h1 : 2 * (m + 1) + 1 = (2 * m + 1) + 1 + 1 := by ring
    rw [h1, List.range_succ, List.range_succ, List.filter_append,
      List.filter_append, ih, List.range_succ, List.map_append]
    have hodd : ¬ ((2 * m + 1) % 2 = 0) := by omega
    have heven : (2 * m + 1 + 1) % 2 = 0 := by omega
    simp [hodd, heven, List.range_succ]

theorem filterMap_emit_even (len s m : Nat) (hsm : s ≤ m) :
    ((List.range (m + 1)).map (fun k => 2 * k)).filterMap (pacingEmit len s)
      = (List.range (s + 1)).map (fun k => s - k) := by
  rw [List.filterMap_map]
  have hfun : ∀ k, (pacingEmit len s ∘ fun k => 2 * k) k
      = if k ≤ s then some (s - k) else none := by
    intro k
    show pacingEmit len s (2 * k) = _
    unfold pacingEmit
    rw [if_pos (by omega : (2 * k) % 2 = 0),
      show 2 * k / 2 = k by omega]
  rw [List.filterMap_congr (fun x _ => hfun x)]
  obtain ⟨d, hd⟩ : ∃ d, m + 1 = (s + 1) + d := ⟨m - s, by omega⟩
  rw [hd, List.range_add, List.filterMap_append]
  have h1 : (List.range (s + 1)).filterMap (fun k => if k ≤ s then some (s - k) else none)
      = (List.range (s + 1)).map (fun k => s - k) := by
    have hc : (List.range (s + 1)).filterMap (fun k => if k ≤ s then some (s - k) else none)
        = (List.range (s + 1)).filterMap (fun k => some (s - k)) :=
      List.filterMap_congr (fun x hx => by
        rw [if_pos (by have := List.mem_range.mp hx; omega)])
    rw [hc]
    exact congrFun (List.filterMap_eq_map (fun k => s - k)) (List.range (s + 1))
  have h2 : ((List.range d).map (fun x => s + 1 + x)).filterMap
      (fun k => if k ≤ s then some (s - k) else none) = [] := by
    apply List.filterMap_eq_nil_iff.mpr
    intro x hx
    obtain ⟨y, _, rfl⟩ := List.mem_map.mp hx
    rw [if_neg (by omega)]
  rw [h1, h2, List.append_nil]

theorem filterMap_emit_odd (len s m : Nat) (hm : len - s - 1 ≤ m) :
    ((List.range m).map (fun k => 2 * k + 1)).filterMap (pacingEmit len s)
      = (List.range (len - s - 1)).map (fun k => s + 1 + k) := by
  rw [List.filterMap_map]
  have hfun : ∀ k, (pacingEmit len s ∘ fun k => 2 * k + 1) k
      = if k + 1 < len - s then some (s + 1 + k) else none := by
    intro k
    show pacingEmit len s (2 * k + 1) = _
    unfold pacingEmit
    rw [if_neg (by omega : ¬ (2 * k + 1) % 2 = 0),
      show (2 * k + 1 + 1) / 2 = k + 1 by omega]
    by_cases h : k + 1 < len - s
    · rw [if_pos h, if_pos h, show s + (k + 1) = s + 1 + k by ring]
    · rw [if_neg h, if_neg h]
  rw [List.filterMap_congr (fun x _ => hfun x)]
  obtain ⟨d, hd⟩ : ∃ d, m = (len - s - 1) + d := ⟨m - (len - s - 1), by omega⟩
  rw [hd, List.range_add, List.filterMap_append]
  have h1 : (List.range (len - s - 1)).filterMap
      (fun k => if k + 1 < len - s then some (s + 1 + k) else none)
      = (List.range (len - s - 1)).map (fun k => s + 1 + k) := by
    have hc : (List.range (len - s - 1)).filterMap
        (fun k => if k + 1 < len - s then some (s + 1 + k) else none)
        = (List.range (len - s - 1)).filterMap (fun k => some (s + 1 + k)) :=
      List.filterMap_congr (fun x hx => by
        rw [if_pos (by have := List.mem_range.mp hx; omega)])
    rw [hc]
    exact congrFun (List.filterMap_eq_map (fun k => s + 1 + k)) (List.range (len - s - 1))
  have h2 : ((List.range d).map (fun x => len - s - 1 + x)).filterMap
      (fun k => if k + 1 < len - s then some (s + 1 + k) else none) = [] := by
    apply List.filterMap_eq_nil_iff.mpr
    intro x hx
    obtain ⟨y, _, rfl⟩ := List.mem_map.mp hx
    rw [if_neg (by omega)]
  rw [h1, h2, List.append_nil]

theorem map_sub_range_perm (s : Nat) :
    ((List.range (s + 1)).map (fun k => s - k)).Perm (List.range (s + 1)) := by
  have hnodup : ((List.range (s + 1)).map (fun k => s - k)).Nodup := by
    apply (List.nodup_range (s + 1)).map_on
    intro x hx y hy h
    have hx' := List.mem_range.mp hx
    have hy' := List.mem_range.mp hy
    omega
  have hsub : ((List.range (s + 1)).map (fun k => s - k)) ⊆ List.range (s + 1) := by
    intro x hx
    obtain ⟨y, hy, rfl⟩ := List.mem_map.mp hx
    have := List.mem_range.mp hy
    exact List.mem_range.mpr (by omega)
  exact (hnodup.subperm hsub).perm_of_length_le (by simp)

/-- The emitted indices over `0 ≤ pos < stop_pos` are a permutation of
`0, …, len-1`. -/
theorem emit_range_perm (len s : Nat) (hs : s < len) :
    ((List.range (2 * max (len - s) s + 1)).filterMap (pacingEmit len s)).Perm
      (List.range len) := by
  have hperm1 := (List.filter_append_perm (fun p => decide (p % 2 = 0))
    (List.range (2 * max (len - s) s + 1))).symm
  have hstep1 := hperm1.filterMap (pacingEmit len s)
  rw [List.filterMap_append, filter_even_range, filter_odd_range,
    filterMap_emit_even len s _ (le_max_right _ _),
    filterMap_emit_odd len s _ (by omega)] at hstep1
  refine hstep1.trans ?_
  have hstep2 := (map_sub_range_perm s).append_right
    ((List.range (len - s - 1)).map (fun k => s + 1 + k))
  refine hstep2.trans ?_
  have : List.range len
      = List.range (s + 1) ++ (List.range (len - s - 1)).map (fun x => s + 1 + x) := by
    rw [← List.range_add, show s + 1 + (len - s - 1) = len by omega]
  rw [this]

theorem filterMap_getElem_range {E : Type} :
    ∀ (it : List E), (List.range it.length).filterMap (fun i => it[i]?) = it := by
  intro it
  induction it with
  | nil => rfl
  | cons a l ih =>
    calc (List.range (a :: l).length).filterMap (fun i => (a :: l)[i]?)
        = (0 :: (List.range l.length).map Nat.succ).filterMap
            (fun i => (a :: l)[i]?) := by
          rw [List.length_cons, List.range_succ_eq_map]
      _ = a :: ((List.range l.length).map Nat.succ).filterMap
            (fun i => (a :: l)[i]?) := by
          simp [List.filterMap_cons]
      _ = a :: (List.range l.length).filterMap
            (fun k => (a :: l)[k + 1]?) := by
          rw [List.filterMap_map]
          rfl
      _ = a :: (List.range l.length).filterMap (fun k => l[k]?) := by
          congr 1
          apply List.filterMap_congr
          intro x _
          rw [List.getElem?_cons_succ]
      _ = a :: l := by rw [ih]

/-- C5 (counterexample to the claim as stated): for `N = 1`,
`start_at = N = 1` the claim requires the walk to degenerate to a pure
left-walk still yielding all `N` elements, but the first `next()` call
computes candidate index `start_at - 0 = N`, which is out of bounds, and
returns exhaustion: the walk yields nothing. -/
theorem pacingWalk_start_at_len_empty :
    pacingWalkDrain ([42] : List Nat) 1 = [] ∧
    ¬ (pacingWalkDrain ([42] : List Nat) 1).Perm [42] := by
  have h0 : pacingWalkDrain ([42] : List Nat) 1 = [] := by decide
  refine ⟨h0, ?_⟩
  rw [h0]
  intro h
  simpa using h.length_eq

/-- C5 (amended): for every random-access sequence and every
`start_at < N`, draining `pacing_walk(start_at)` yields a permutation of
the sequence's elements (every index exactly once), starting with the
element at `start_at`; for `start_at = N` the walk yields nothing (the
first candidate index is out of bounds and `next()` reports exhaustion),
rather than the pure left-walk of all `N` elements the original claim
asserts.  The length hypothesis keeps the step counter inside `usize`. -/
theorem pacingWalk_permutation {E : Type} (it : List E) (s : Nat)
    (hU : 2 * it.length + 1 ≤ USIZE_MAX) :
    (s < it.length →
      (pacingWalkDrain it s).Perm it ∧ (pacingWalkDrain it s).head? = it[s]?) ∧
    (s = it.length → pacingWalkDrain it s = []) := by
  constructor
  · intro hs
    have hdrain := pacingWalkDrain_spec it s hs hU
    constructor
    · rw [hdrain, ← List.range_eq_range', ← List.filterMap_filterMap]
      have h2 := (emit_range_perm it.length s hs).filterMap (fun i => it[i]?)
      rw [filterMap_getElem_range] at h2
      exact h2
    · rw [hdrain, List.range'_succ]
      have hemit0 : pacingEmit it.length s 0 = some s := by
        unfold pacingEmit
        simp
      obtain ⟨e, hget⟩ : ∃ e, it[s]? = some e := by
        rw [List.getElem?_eq_getElem hs]
        exact ⟨_, rfl⟩
      simp [List.filterMap_cons, hemit0, hget]
  · intro hs
    subst hs
    have hv : pacingStopPos it.length it.length
        = .ok (min (2 * it.length + 1) USIZE_MAX) := by
      rw [pacingStopPos_eq it.length it.length (le_refl _)]
      rw [Nat.sub_self]
      rw [show max 0 it.length = it.length by omega]
    have h1 : 1 ≤ min (2 * it.length + 1) USIZE_MAX := by
      have hU1 : 1 ≤ USIZE_MAX := by rw [USIZE_MAX_eq]; omega
      omega
    have hnext : pacingWalkNext it it.length 0 = .ok none := by
      simp only [pacingWalkNext, hv]
      obtain ⟨k, hk⟩ : ∃ k, min (2 * it.length + 1) USIZE_MAX - 0 = k + 1 :=
        ⟨min (2 * it.length + 1) USIZE_MAX - 1, by omega⟩
      rw [hk]
      simp only [pacingWalkNextAux]
      rw [if_neg (by omega : ¬ min (2 * it.length + 1) USIZE_MAX ≤ 0)]
      have hca : checked_add 0 1 = some 1 := by
        unfold checked_add
        rw [if_pos (by rw [USIZE_MAX_eq]; omega)]
      simp only [hca, Option.map_some', Option.getD_some]
      simp only [if_true]
      rw [if_neg (by omega : ¬ it.length < 1 / 2)]
      rw [show it.length - 1 / 2 = it.length by omega]
      rw [List.getElem?_eq_none_iff.mpr (le_refl _)]
    show pacingWalkDrainAux it it.length (2 * it.length + 2) 0 = []
    rw [show 2 * it.length + 2 = (2 * it.length + 1) + 1 from rfl]
    simp only [pacingWalkDrainAux, hnext]

/-- Witness for C5 on `it = [10,20,30,40,50]`, `start_at = 2` (the spec's
own example, which drains to `[30,40,20,50,10]`). -/
theorem pacingWalk_permutation_witness :
    (2 * ([10, 20, 30, 40, 50] : List Nat).length + 1 ≤ USIZE_MAX) ∧
    ((2 < ([10, 20, 30, 40, 50] : List Nat).length →
      (pacingWalkDrain ([10, 20, 30, 40, 50] : List Nat) 2).Perm [10, 20, 30, 40, 50] ∧
      (pacingWalkDrain ([10, 20, 30, 40, 50] : List Nat) 2).head?
        = ([10, 20, 30, 40, 50] : List Nat)[2]?) ∧
    (2 = ([10, 20, 30, 40, 50] : List Nat).length →
      pacingWalkDrain ([10, 20, 30, 40, 50] : List Nat) 2 = [])) :=
  ⟨by decide, pacingWalk_permutation [10, 20, 30, 40, 50] 2 (by decide)⟩

/-! ## take_exactly / skip_exactly
(src/iter/take_exactly.rs, src/iter/skip_exactly.rs) -/

/-- `TakeExactly::next`: state is the remaining upstream `iter` and the
count `left` of elements still owed; `Except.error` models the `panic!`
on premature upstream exhaustion. -/
def takeExactlyNext (iter : List E) (left : Nat) :
    Except String (Option (E × List E × Nat)) :=
  match left with
  | 0 => .ok none
  | _ + 1 =>
    match iter with
    | [] => .error "take_exactly expected more elements from iterator, but ran out"
    | e :: rest => .ok (some (e, rest, left - 1))

/-- Driver: drain a `take_exactly` iterator, recording the elements
yielded before exhaustion or the panic. -/
def takeExactlyDrain (iter : List E) : Nat → Except String (List E)
  | 0 =>
    match takeExactlyNext iter 0 with
    | .error msg => .error msg
    | .ok none => .ok []
    | .ok (some (e, _, _)) => .ok [e]
  | left + 1 =>
    match takeExactlyNext iter (left + 1) with
    | .error msg => .error msg
    | .ok none => .ok []
    | .ok (some (e, rest, _)) =>
      match takeExactlyDrain rest left with
      | .error msg => .error msg
      | .ok l => .ok (e :: l)

/-- `SkipExactlyIterator::skip_exactly`: pull `n` elements, panicking if
the iterator runs out early, and return the advanced iterator. -/
def skipExactly (iter : List E) : Nat → Except String (List E)
  | 0 => .ok iter
  | n + 1 =>
    match iter with
    | [] => .error "skip_exactly asked to skip more elements than it got"
    | _ :: rest => skipExactly rest n

/-- C9: take_exactly / skip_exactly precondition abort.  For upstream `S`
of length `m`: when `n ≤ m`, draining `take_exactly(n)` yields exactly the
first `n` elements and then reports exhaustion without aborting, and
`skip_exactly(n)` returns the iterator advanced past the first `n`
elements; when `m < n`, both abort fatally (the model's `Except.error`,
i.e. `panic!`) — `take_exactly` on the `(m+1)`-th pull, after yielding all
`m` elements — and the violation is never a recoverable result value. -/
theorem take_skip_exactly_precondition_abort {E : Type} (S : List E) (n : Nat) :
    (n ≤ S.length →
      takeExactlyDrain S n = .ok (S.take n) ∧ skipExactly S n = .ok (S.drop n)) ∧
    (S.length < n →
      (∃ msg, takeExactlyDrain S n = .error msg) ∧
      (∃ msg, skipExactly S n = .error msg)) := by
  induction S generalizing n with
  | nil =>
    constructor
    · intro hn
      have : n = 0 := by simpa using hn
      subst this
      exact ⟨rfl, rfl⟩
    · intro hn
      obtain ⟨n', rfl⟩ : ∃ n', n = n' + 1 := ⟨n - 1, by omega⟩
      exact ⟨⟨_, rfl⟩, ⟨_, rfl⟩⟩
  | cons e rest ih =>
    constructor
    · intro hn
      match n, hn with
      | 0, _ => exact ⟨rfl, rfl⟩
      | n + 1, hn =>
        have hn' : n ≤ rest.length := by simpa using hn
        obtain ⟨hgood, _⟩ := ih n
        obtain ⟨htake, hskip⟩ := hgood hn'
        refine ⟨?_, ?_⟩
        · simp only [takeExactlyDrain, takeExactlyNext]
          rw [htake]
          rfl
        · simp only [skipExactly]
          rw [hskip]
          rfl
    · intro hn
      match n, hn with
      | n + 1, hn =>
        have hn' : rest.length < n := by simpa using hn
        obtain ⟨_, hbad⟩ := ih n
        obtain ⟨⟨msg1, htake⟩, ⟨msg2, hskip⟩⟩ := hbad hn'
        refine ⟨⟨msg1, ?_⟩, ⟨msg2, ?_⟩⟩
        · simp only [takeExactlyDrain, takeExactlyNext]
          rw [htake]
        · simp only [skipExactly]
          rw [hskip]

/-- Witness for C9 on `S = [7, 8]`: `take_exactly 2` / `skip_exactly 2`
succeed; `take_exactly 3` / `skip_exactly 3` abort. -/
theorem take_skip_exactly_precondition_abort_witness :
    ((2 ≤ ([7, 8] : List Nat).length →
      takeExactlyDrain ([7, 8] : List Nat) 2 = .ok [7, 8] ∧
      skipExactly ([7, 8] : List Nat) 2 = .ok []) ∧
     (([7, 8] : List Nat).length < 2 → True)) ∧
    ((([7, 8] : List Nat).length < 3 →
      (∃ msg, takeExactlyDrain ([7, 8] : List Nat) 3 = .error msg) ∧
      (∃ msg, skipExactly ([7, 8] : List Nat) 3 = .error msg))) :=
  ⟨⟨fun h => (take_skip_exactly_precondition_abort [7, 8] 2).1 h,
    fun _ => trivial⟩,
   fun h => (take_skip_exactly_precondition_abort [7, 8] 3).2 h⟩

end Grabbag
